import Mathlib

set_option linter.unusedSectionVars false

/-!
A verification development for the thread-safe, fixed-capacity LRU cache
presented in the repository's testing notes (`make_tests_great/README.md`).

The Go implementation keeps three pieces of state: a `container/list` recency
queue whose elements carry `cacheItem` values, a map `items` from keys to
queue-element pointers, and a mutex.  The embedding makes element identity
explicit: every pushed element gets a fresh natural-number identity, `elems`
is the store of allocated elements, `queue` is the recency ordering of
identities (front at the head), and `items` maps keys to identities.  The
mutex is a locked flag; Go's `defer` is modelled by the placement of the
unlock on the panic exit paths.  The fallible type assertion
`item.Value.(cacheItem)` returns an `Option`; a `none` result of `Set`/`Get`
is a panic of that assertion.
-/

namespace LRU

/-- The record stored inside every queue element: a key and its value. -/
structure cacheItem (K V : Type) where
  key : K
  value : V
deriving DecidableEq

/-- The dynamic value held by a queue element (an empty-interface value in
Go): either a `cacheItem`, or some other value on which the type assertion
`item.Value.(cacheItem)` would panic. -/
inductive ElemValue (K V : Type) where
  | item : cacheItem K V → ElemValue K V
  | other : ElemValue K V
deriving DecidableEq

/-- The type assertion `v.(cacheItem)`; `none` means the assertion panics. -/
def ElemValue.asItem {K V : Type} : ElemValue K V → Option (cacheItem K V)
  | .item it => some it
  | .other => none

/-- The `lruCache` struct: the fixed capacity, the mutex (as a locked flag),
the allocated queue elements addressed by identity, the recency queue of
element identities (most recent at the head), the key index, and the next
fresh identity. -/
structure lruCache (K V : Type) where
  capacity : Nat
  mutex : Bool
  elems : List (Nat × ElemValue K V)
  queue : List Nat
  items : List (K × Nat)
  nextId : Nat
deriving DecidableEq

/-- First-match association lookup: Go's map read `m[k]`. -/
def lookupA {α β : Type} [DecidableEq α] : List (α × β) → α → Option β
  | [], _ => none
  | (a, b) :: t, k => if a = k then some b else lookupA t k

/-- Association update, Go's map write `m[k] = v`: replace the first binding
of `k` in place, or append a fresh binding. -/
def insertA {α β : Type} [DecidableEq α] : List (α × β) → α → β → List (α × β)
  | [], k, v => [(k, v)]
  | (a, b) :: t, k, v => if a = k then (k, v) :: t else (a, b) :: insertA t k v

/-- Association removal, Go's `delete(m, k)`. -/
def eraseA {α β : Type} [DecidableEq α] : List (α × β) → α → List (α × β)
  | [], _ => []
  | (a, b) :: t, k => if a = k then t else (a, b) :: eraseA t k

/-- `container/list.MoveToFront`: move the element to the front when it is an
element of the list, otherwise leave the list unchanged. -/
def moveToFront (l : List Nat) (i : Nat) : List Nat :=
  if i ∈ l then i :: l.erase i else l

variable {K V : Type} [DecidableEq K]

/-- Modelled from the spec: the body of `deleteUnusedIfOverflow` is not part
of the source material (only its call site inside `Set` is).  Per the spec,
if the insertion made the live count exceed the capacity, the entry currently
at the back of the recency ordering is evicted, removed from both the
ordering and the index — exactly one eviction. -/
def deleteUnusedIfOverflow (cache : lruCache K V) : lruCache K V :=
  if cache.queue.length > cache.capacity then
    match cache.queue.getLast? with
    | some backId =>
        { cache with
          queue := cache.queue.dropLast
          items :=
            match (lookupA cache.elems backId).bind ElemValue.asItem with
            | some it => eraseA cache.items it.key
            | none => cache.items }
    | none => cache
  else cache

/-- `Set`, translated from the source.  The mutex is locked on entry and
unlocked by a plain (not deferred) call just before the return, so on the
panic exit path of the type assertion the cache is returned still locked.
A first component of `none` is that panic; `some b` returns `exists`. -/
def Set (cache : lruCache K V) (key : K) (value : V) :
    Option Bool × lruCache K V :=
  let c := { cache with mutex := true }
  match lookupA c.items key with
  | none =>
      let c :=
        { c with
          elems := (c.nextId, ElemValue.item ⟨key, value⟩) :: c.elems
          queue := c.nextId :: c.queue
          nextId := c.nextId + 1 }
      let c := { c with items := insertA c.items key c.queue.headI }
      let c := deleteUnusedIfOverflow c
      (some false, { c with mutex := false })
  | some i =>
      match lookupA c.elems i with
      | some (ElemValue.item it) =>
          let c :=
            { c with
              elems := insertA c.elems i (ElemValue.item { it with value := value }) }
          let c := { c with queue := moveToFront c.queue i }
          (some true, { c with mutex := false })
      | _ => (none, c)

/-- `Get`, translated from the source.  The unlock is deferred, so the mutex
is released on every exit path, the panic of the type assertion included.
On a miss the returned value is `none` (Go's `nil` interface value); a first
component of `none` overall is the panic of the type assertion. -/
def Get (cache : lruCache K V) (key : K) :
    Option (Option V × Bool) × lruCache K V :=
  let c := { cache with mutex := true }
  match lookupA c.items key with
  | none => (some (none, false), { c with mutex := false })
  | some i =>
      let c := { c with queue := moveToFront c.queue i }
      match lookupA c.elems i with
      | some (ElemValue.item it) =>
          (some (some it.value, true), { c with mutex := false })
      | _ => (none, { c with mutex := false })

/-- The construction error taxonomy: `InvalidCapacity` only. -/
inductive CacheError where
  | InvalidCapacity
deriving DecidableEq

/-- Modelled from the spec: `New` is not part of the source material.  Per
the spec, `New C` fails with `InvalidCapacity` exactly when `C < 1`, and
otherwise returns an empty cache of capacity `C`. -/
def New (K V : Type) (capacity : Nat) : Except CacheError (lruCache K V) :=
  if capacity < 1 then .error .InvalidCapacity
  else .ok { capacity := capacity, mutex := false, elems := [], queue := [],
             items := [], nextId := 0 }

/-- The key recorded in the element with identity `i`, when that element is
allocated and holds a `cacheItem`. -/
def itemKeyAt (c : lruCache K V) (i : Nat) : Option K :=
  (lookupA c.elems i).bind (fun ev => (ElemValue.asItem ev).map cacheItem.key)

/-- The key at the back of the recency ordering: the next eviction candidate. -/
def backKey (c : lruCache K V) : Option K := c.queue.getLast?.bind (itemKeyAt c)

/-- The key at the front of the recency ordering: the most recently used. -/
def frontKey (c : lruCache K V) : Option K := c.queue.head?.bind (itemKeyAt c)

/-- A key is present when the index has a binding for it. -/
def present (c : lruCache K V) (k : K) : Bool := (lookupA c.items k).isSome

/-- The representation invariant tying the index, the recency queue and the
element store together: the queue has no duplicate identities, the index has
no duplicate keys, index bindings point into the queue, every queue identity
is indexed by some key, every indexed element holds a `cacheItem` whose `key`
field equals the index key pointing at it, and queue identities are older
than `nextId`. -/
def Wf (c : lruCache K V) : Prop :=
  c.queue.Nodup ∧
  (c.items.map Prod.fst).Nodup ∧
  (∀ p ∈ c.items, p.2 ∈ c.queue) ∧
  (∀ i ∈ c.queue, ∃ p ∈ c.items, p.2 = i) ∧
  (∀ p ∈ c.items, itemKeyAt c p.2 = some p.1) ∧
  (∀ i ∈ c.queue, i < c.nextId)

instance (c : lruCache K V) : Decidable (Wf c) := by
  unfold Wf
  infer_instance

/-- A cache operation: a `Set` with a key and a value, or a `Get` of a key. -/
inductive Op (K V : Type) where
  | set : K → V → Op K V
  | get : K → Op K V

/-- Apply one operation to the cache, keeping the resulting state. -/
def applyOp (c : lruCache K V) : Op K V → lruCache K V
  | .set k v => (Set c k v).2
  | .get k => (Get c k).2

/-- Run a finite sequence of operations left to right. -/
def runOps (c : lruCache K V) (ops : List (Op K V)) : lruCache K V :=
  ops.foldl applyOp c

/-- The cache state reached in the fresh-key branch of `Set` right after its
two insertion statements (the push of the new element and the index write),
before `deleteUnusedIfOverflow` runs: a proof-side name for that intermediate
state. -/
def pushNew (cache : lruCache K V) (key : K) (value : V) : lruCache K V :=
  { cache with
    mutex := true
    elems := (cache.nextId, ElemValue.item ⟨key, value⟩) :: cache.elems
    queue := cache.nextId :: cache.queue
    items := insertA cache.items key cache.nextId
    nextId := cache.nextId + 1 }

/-- A cache state whose indexed element holds a non-`cacheItem` value: the
type assertion in the update branch of `Set` panics on it. -/
def badCache : lruCache Nat Nat :=
  { capacity := 1, mutex := false, elems := [(5, ElemValue.other)],
    queue := [5], items := [(0, 5)], nextId := 6 }

/-- A concrete well-formed cache at full capacity 2: key 1 (value 10, element
0) is least recently used, key 2 (value 20, element 1) is most recent. -/
def demoCache : lruCache Nat Nat :=
  { capacity := 2, mutex := false,
    elems := [(0, ElemValue.item ⟨1, 10⟩), (1, ElemValue.item ⟨2, 20⟩)],
    queue := [1, 0], items := [(1, 0), (2, 1)], nextId := 2 }

/-- The empty cache of capacity 2 that `New` returns. -/
def emptyCache2 : lruCache Nat Nat :=
  { capacity := 2, mutex := false, elems := [], queue := [], items := [],
    nextId := 0 }

/-! Association-list lemmas. -/

theorem lookupA_insertA_self {α β : Type} [DecidableEq α] (l : List (α × β)) (k : α) (v : β) :
    lookupA (insertA l k v) k = some v := by
  induction l with
  | nil => simp [insertA, lookupA]
  | cons p t ih =>
      obtain ⟨a, b⟩ := p
      by_cases h : a = k
      · simp [insertA, h, lookupA]
      · simp [insertA, h, lookupA, ih]

theorem lookupA_insertA_ne {α β : Type} [DecidableEq α] (l : List (α × β)) (k k' : α) (v : β)
    (h : k' ≠ k) : lookupA (insertA l k v) k' = lookupA l k' := by
  induction l with
  | nil => simp [insertA, lookupA, Ne.symm h]
  | cons p t ih =>
      obtain ⟨a, b⟩ := p
      by_cases ha : a = k
      · subst ha
        simp [insertA, lookupA, Ne.symm h]
      · by_cases ha' : a = k'
        · simp [insertA, lookupA, ha, ha', h]
        · simp [insertA, lookupA, ha, ha', ih]

theorem lookupA_eq_none_iff {α β : Type} [DecidableEq α] (l : List (α × β)) (k : α) :
    lookupA l k = none ↔ ∀ p ∈ l, p.1 ≠ k := by
  induction l with
  | nil => simp [lookupA]
  | cons p t ih =>
      obtain ⟨a, b⟩ := p
      by_cases ha : a = k
      · simp [lookupA, ha]
      · simp [lookupA, ha, ih]

theorem mem_eraseA_ne_key {α β : Type} [DecidableEq α] {l : List (α × β)} {k : α}
    (hn : (l.map Prod.fst).Nodup) : ∀ p ∈ eraseA l k, p.1 ≠ k := by
  induction l with
  | nil => simp [eraseA]
  | cons q t ih =>
      obtain ⟨a, b⟩ := q
      simp only [List.map_cons, List.nodup_cons] at hn
      by_cases ha : a = k
      · simp only [eraseA, if_pos ha]
        intro p hp hpk
        apply hn.1
        rw [ha, ← hpk]
        exact List.mem_map_of_mem Prod.fst hp
      · simp only [eraseA, if_neg ha]
        intro p hp
        rcases List.mem_cons.mp hp with h1 | h2
        · rw [h1]
          exact ha
        · exact ih hn.2 p h2

theorem lookupA_eraseA_self {α β : Type} [DecidableEq α] (l : List (α × β)) (k : α)
    (h : (l.map Prod.fst).Nodup) : lookupA (eraseA l k) k = none :=
  (lookupA_eq_none_iff _ _).mpr (mem_eraseA_ne_key h)

theorem lookupA_eraseA_ne {α β : Type} [DecidableEq α] (l : List (α × β)) (k k' : α)
    (h : k' ≠ k) : lookupA (eraseA l k) k' = lookupA l k' := by
  induction l with
  | nil => simp [eraseA]
  | cons p t ih =>
      obtain ⟨a, b⟩ := p
      by_cases ha : a = k
      · simp [eraseA, lookupA, ha, Ne.symm h]
      · by_cases ha' : a = k'
        · simp [eraseA, lookupA, ha, ha', h]
        · simp [eraseA, lookupA, ha, ha', ih]

theorem mem_of_lookupA_eq_some {α β : Type} [DecidableEq α] {l : List (α × β)} {k : α} {v : β}
    (h : lookupA l k = some v) : (k, v) ∈ l := by
  induction l with
  | nil => simp [lookupA] at h
  | cons p t ih =>
      obtain ⟨a, b⟩ := p
      by_cases ha : a = k
      · simp [lookupA, ha] at h
        simp [ha, h]
      · simp only [lookupA, if_neg ha] at h
        simp [ih h]

theorem lookupA_eq_some_of_mem {α β : Type} [DecidableEq α] {l : List (α × β)} {k : α} {v : β}
    (hn : (l.map Prod.fst).Nodup) (h : (k, v) ∈ l) : lookupA l k = some v := by
  induction l with
  | nil => simp at h
  | cons p t ih =>
      obtain ⟨a, b⟩ := p
      simp only [List.map_cons, List.nodup_cons] at hn
      rcases List.mem_cons.mp h with h1 | h2
      · rw [Prod.mk.injEq] at h1
        simp [lookupA, h1.1, h1.2]
      · have hak : a ≠ k := by
          intro hak
          subst hak
          exact hn.1 (List.mem_map_of_mem Prod.fst h2)
        simp [lookupA, hak, ih hn.2 h2]

theorem mem_insertA {α β : Type} [DecidableEq α] {l : List (α × β)} {k : α} {v : β}
    {p : α × β} (h : p ∈ insertA l k v) : p = (k, v) ∨ p ∈ l := by
  induction l with
  | nil => simpa [insertA] using h
  | cons q t ih =>
      obtain ⟨a, b⟩ := q
      by_cases ha : a = k
      · simp only [insertA, if_pos ha] at h
        rcases List.mem_cons.mp h with h1 | h2
        · exact Or.inl h1
        · exact Or.inr (List.mem_cons_of_mem _ h2)
      · simp only [insertA, if_neg ha] at h
        rcases List.mem_cons.mp h with h1 | h2
        · exact Or.inr (h1 ▸ List.mem_cons_self _ _)
        · rcases ih h2 with h3 | h4
          · exact Or.inl h3
          · exact Or.inr (List.mem_cons_of_mem _ h4)

theorem self_mem_insertA {α β : Type} [DecidableEq α] (l : List (α × β)) (k : α) (v : β) :
    (k, v) ∈ insertA l k v := by
  induction l with
  | nil => simp [insertA]
  | cons q t ih =>
      obtain ⟨a, b⟩ := q
      by_cases ha : a = k
      · simp [insertA, ha]
      · simp only [insertA, if_neg ha]
        exact List.mem_cons_of_mem _ ih

theorem mem_insertA_of_ne {α β : Type} [DecidableEq α] {l : List (α × β)} {k : α} {v : β}
    {p : α × β} (h : p ∈ l) (hne : p.1 ≠ k) : p ∈ insertA l k v := by
  induction l with
  | nil => simp at h
  | cons q t ih =>
      obtain ⟨a, b⟩ := q
      by_cases ha : a = k
      · simp only [insertA, if_pos ha]
        rcases List.mem_cons.mp h with h1 | h2
        · exfalso
          apply hne
          rw [h1]
          exact ha
        · exact List.mem_cons_of_mem _ h2
      · simp only [insertA, if_neg ha]
        rcases List.mem_cons.mp h with h1 | h2
        · exact h1 ▸ List.mem_cons_self _ _
        · exact List.mem_cons_of_mem _ (ih h2)

theorem eraseA_sublist {α β : Type} [DecidableEq α] (l : List (α × β)) (k : α) :
    (eraseA l k).Sublist l := by
  induction l with
  | nil => simp [eraseA]
  | cons q t ih =>
      obtain ⟨a, b⟩ := q
      by_cases ha : a = k
      · simp only [eraseA, if_pos ha]
        exact (List.sublist_cons_self _ _)
      · simp only [eraseA, if_neg ha]
        exact ih.cons₂ _

theorem mem_eraseA_of_ne {α β : Type} [DecidableEq α] {l : List (α × β)} {k : α}
    {p : α × β} (h : p ∈ l) (hne : p.1 ≠ k) : p ∈ eraseA l k := by
  induction l with
  | nil => simp at h
  | cons q t ih =>
      obtain ⟨a, b⟩ := q
      by_cases ha : a = k
      · simp only [eraseA, if_pos ha]
        rcases List.mem_cons.mp h with h1 | h2
        · exact absurd (h1 ▸ ha) hne
        · exact h2
      · simp only [eraseA, if_neg ha]
        rcases List.mem_cons.mp h with h1 | h2
        · exact h1 ▸ List.mem_cons_self _ _
        · exact List.mem_cons_of_mem _ (ih h2)

theorem keys_insertA_subset {α β : Type} [DecidableEq α] (l : List (α × β)) (k : α) (v : β) :
    ∀ a ∈ (insertA l k v).map Prod.fst, a = k ∨ a ∈ l.map Prod.fst := by
  intro a ha
  rcases List.mem_map.mp ha with ⟨p, hp, hpa⟩
  rcases mem_insertA hp with h1 | h2
  · left
    rw [← hpa, h1]
  · right
    exact hpa ▸ List.mem_map_of_mem Prod.fst h2

theorem keys_insertA_nodup {α β : Type} [DecidableEq α] (l : List (α × β)) (k : α) (v : β)
    (h : (l.map Prod.fst).Nodup) : ((insertA l k v).map Prod.fst).Nodup := by
  induction l with
  | nil => simp [insertA]
  | cons q t ih =>
      obtain ⟨a, b⟩ := q
      simp only [List.map_cons, List.nodup_cons] at h
      by_cases ha : a = k
      · simp only [insertA, if_pos ha, List.map_cons, List.nodup_cons]
        exact ⟨ha ▸ h.1, h.2⟩
      · simp only [insertA, if_neg ha, List.map_cons, List.nodup_cons]
        refine ⟨?_, ih h.2⟩
        intro hmem
        rcases keys_insertA_subset t k v a hmem with h1 | h2
        · exact ha h1
        · exact h.1 h2

theorem keys_eraseA_nodup {α β : Type} [DecidableEq α] (l : List (α × β)) (k : α)
    (h : (l.map Prod.fst).Nodup) : ((eraseA l k).map Prod.fst).Nodup :=
  ((eraseA_sublist l k).map Prod.fst).nodup h

theorem length_insertA_fresh {α β : Type} [DecidableEq α] (l : List (α × β)) (k : α) (v : β)
    (h : lookupA l k = none) : (insertA l k v).length = l.length + 1 := by
  induction l with
  | nil => simp [insertA]
  | cons q t ih =>
      obtain ⟨a, b⟩ := q
      by_cases ha : a = k
      · simp [lookupA, ha] at h
      · simp only [lookupA, if_neg ha] at h
        simp [insertA, ha, ih h]

theorem length_eraseA_present {α β : Type} [DecidableEq α] (l : List (α × β)) (k : α) {v : β}
    (h : lookupA l k = some v) : (eraseA l k).length + 1 = l.length := by
  induction l with
  | nil => simp [lookupA] at h
  | cons q t ih =>
      obtain ⟨a, b⟩ := q
      by_cases ha : a = k
      · simp [eraseA, ha]
      · simp only [lookupA, if_neg ha] at h
        simp [eraseA, ha, ih h]

/-! Lemmas about moveToFront. -/

theorem length_moveToFront (l : List Nat) (i : Nat) :
    (moveToFront l i).length = l.length := by
  unfold moveToFront
  by_cases h : i ∈ l
  · simp only [if_pos h, List.length_cons, List.length_erase_of_mem h]
    have := List.length_pos.mpr (List.ne_nil_of_mem h)
    omega
  · simp [if_neg h]

theorem mem_moveToFront (l : List Nat) (i a : Nat) :
    a ∈ moveToFront l i ↔ a ∈ l := by
  unfold moveToFront
  by_cases h : i ∈ l
  · simp only [if_pos h, List.mem_cons]
    constructor
    · rintro (rfl | ha)
      · exact h
      · exact List.mem_of_mem_erase ha
    · intro ha
      by_cases hai : a = i
      · exact Or.inl hai
      · exact Or.inr ((List.mem_erase_of_ne hai).mpr ha)
  · simp [if_neg h]

theorem nodup_moveToFront (l : List Nat) (i : Nat) (h : l.Nodup) :
    (moveToFront l i).Nodup := by
  unfold moveToFront
  by_cases hi : i ∈ l
  · simp only [if_pos hi, List.nodup_cons]
    exact ⟨h.not_mem_erase, h.erase i⟩
  · simpa [if_neg hi] using h

theorem head_moveToFront (l : List Nat) (i : Nat) (h : i ∈ l) :
    (moveToFront l i).head? = some i := by
  simp [moveToFront, if_pos h]

/-! Equation lemmas for Set and Get. -/

theorem set_new_eq (c : lruCache K V) (k : K) (v : V) (h : lookupA c.items k = none) :
    Set c k v =
      (some false, { deleteUnusedIfOverflow (pushNew c k v) with mutex := false }) := by
  unfold Set pushNew
  simp [h]

theorem set_update_eq (c : lruCache K V) (k : K) (v : V) (i : Nat) (it : cacheItem K V)
    (h1 : lookupA c.items k = some i) (h2 : lookupA c.elems i = some (ElemValue.item it)) :
    Set c k v = (some true,
      { c with elems := insertA c.elems i (ElemValue.item ⟨it.key, v⟩),
               queue := moveToFront c.queue i,
               mutex := false }) := by
  unfold Set
  simp [h1, h2]

theorem get_miss_eq (c : lruCache K V) (k : K) (h : lookupA c.items k = none) :
    Get c k = (some (none, false), { c with mutex := false }) := by
  unfold Get
  simp [h]

theorem get_hit_eq (c : lruCache K V) (k : K) (i : Nat) (it : cacheItem K V)
    (h1 : lookupA c.items k = some i) (h2 : lookupA c.elems i = some (ElemValue.item it)) :
    Get c k = (some (some it.value, true),
      { c with queue := moveToFront c.queue i, mutex := false }) := by
  unfold Get
  simp [h1, h2]

/-! Unpacking the invariant. -/

theorem Wf.queue_nodup {c : lruCache K V} (h : Wf c) : c.queue.Nodup := h.1

theorem Wf.items_keys_nodup {c : lruCache K V} (h : Wf c) :
    (c.items.map Prod.fst).Nodup := h.2.1

theorem Wf.items_mem_queue {c : lruCache K V} (h : Wf c) :
    ∀ p ∈ c.items, p.2 ∈ c.queue := h.2.2.1

theorem Wf.queue_mem_items {c : lruCache K V} (h : Wf c) :
    ∀ i ∈ c.queue, ∃ p ∈ c.items, p.2 = i := h.2.2.2.1

theorem Wf.items_key_match {c : lruCache K V} (h : Wf c) :
    ∀ p ∈ c.items, itemKeyAt c p.2 = some p.1 := h.2.2.2.2.1

theorem Wf.ids_lt {c : lruCache K V} (h : Wf c) :
    ∀ i ∈ c.queue, i < c.nextId := h.2.2.2.2.2

theorem itemKeyAt_eq_some_iff (c : lruCache K V) (i : Nat) (k : K) :
    itemKeyAt c i = some k ↔
      ∃ it : cacheItem K V, lookupA c.elems i = some (ElemValue.item it) ∧ it.key = k := by
  unfold itemKeyAt
  cases hev : lookupA c.elems i with
  | none => simp
  | some ev =>
      cases ev with
      | item it => simp [ElemValue.asItem]
      | other => simp [ElemValue.asItem]

theorem Wf.itemKey_of_lookup {c : lruCache K V} (h : Wf c) {k : K} {i : Nat}
    (hki : lookupA c.items k = some i) : itemKeyAt c i = some k := by
  have := h.items_key_match (k, i) (mem_of_lookupA_eq_some hki)
  simpa using this

theorem Wf.elem_of_lookup {c : lruCache K V} (h : Wf c) {k : K} {i : Nat}
    (hki : lookupA c.items k = some i) :
    ∃ it : cacheItem K V, lookupA c.elems i = some (ElemValue.item it) ∧ it.key = k :=
  (itemKeyAt_eq_some_iff c i k).mp (h.itemKey_of_lookup hki)

/-! Preservation of the invariant. -/

theorem wf_get (c : lruCache K V) (k : K) (h : Wf c) : Wf (Get c k).2 := by
  cases hki : lookupA c.items k with
  | none =>
      rw [get_miss_eq c k hki]
      exact h
  | some i =>
      obtain ⟨it, hel, -⟩ := h.elem_of_lookup hki
      rw [get_hit_eq c k i it hki hel]
      refine ⟨nodup_moveToFront _ _ h.queue_nodup, h.items_keys_nodup, ?_, ?_, ?_, ?_⟩
      · intro p hp
        exact (mem_moveToFront _ _ _).mpr (h.items_mem_queue p hp)
      · intro j hj
        exact h.queue_mem_items j ((mem_moveToFront _ _ _).mp hj)
      · intro p hp
        exact h.items_key_match p hp
      · intro j hj
        exact h.ids_lt j ((mem_moveToFront _ _ _).mp hj)

theorem get_no_panic (c : lruCache K V) (k : K) (h : Wf c) : (Get c k).1.isSome = true := by
  cases hki : lookupA c.items k with
  | none => simp [get_miss_eq c k hki]
  | some i =>
      obtain ⟨it, hel, -⟩ := h.elem_of_lookup hki
      simp [get_hit_eq c k i it hki hel]

theorem wf_pushNew (c : lruCache K V) (k : K) (v : V) (h : Wf c)
    (hk : lookupA c.items k = none) : Wf (pushNew c k v) := by
  have hfresh : c.nextId ∉ c.queue := fun hmem => lt_irrefl _ (h.ids_lt _ hmem)
  have hknot : ∀ p ∈ c.items, p.1 ≠ k := (lookupA_eq_none_iff _ _).mp hk
  unfold pushNew
  refine ⟨?_, ?_, ?_, ?_, ?_, ?_⟩
  · exact List.nodup_cons.mpr ⟨hfresh, h.queue_nodup⟩
  · exact keys_insertA_nodup _ _ _ h.items_keys_nodup
  · intro p hp
    rcases mem_insertA hp with h1 | h2
    · rw [h1]
      exact List.mem_cons_self _ _
    · exact List.mem_cons_of_mem _ (h.items_mem_queue p h2)
  · intro j hj
    rcases List.mem_cons.mp hj with h1 | h2
    · exact ⟨(k, c.nextId), self_mem_insertA _ _ _, h1.symm⟩
    · obtain ⟨p, hp, hpj⟩ := h.queue_mem_items j h2
      exact ⟨p, mem_insertA_of_ne hp (hknot p hp), hpj⟩
  · intro p hp
    rcases mem_insertA hp with h1 | h2
    · rw [h1]
      simp [itemKeyAt, lookupA, ElemValue.asItem]
    · have hlt := h.ids_lt p.2 (h.items_mem_queue p h2)
      have hne : c.nextId ≠ p.2 := by omega
      have hmatch := h.items_key_match p h2
      simp only [itemKeyAt, lookupA] at hmatch ⊢
      simpa [hne] using hmatch
  · intro j hj
    show j < c.nextId + 1
    rcases List.mem_cons.mp hj with h1 | h2
    · omega
    · have := h.ids_lt j h2
      omega

theorem delete_no_overflow_eq (c : lruCache K V) (h : ¬c.queue.length > c.capacity) :
    deleteUnusedIfOverflow c = c := by
  unfold deleteUnusedIfOverflow
  rw [if_neg h]

theorem delete_overflow_eq (c : lruCache K V) (backId : Nat) (it : cacheItem K V)
    (hover : c.queue.length > c.capacity)
    (hlast : c.queue.getLast? = some backId)
    (hel : lookupA c.elems backId = some (ElemValue.item it)) :
    deleteUnusedIfOverflow c =
      { c with queue := c.queue.dropLast, items := eraseA c.items it.key } := by
  unfold deleteUnusedIfOverflow
  rw [if_pos hover]
  simp only [hlast, hel, Option.bind, ElemValue.asItem]

theorem wf_delete (c : lruCache K V) (h : Wf c) : Wf (deleteUnusedIfOverflow c) := by
  by_cases hover : c.queue.length > c.capacity
  · cases hlast : c.queue.getLast? with
    | none =>
        have hnil : c.queue = [] := List.getLast?_eq_none_iff.mp hlast
        rw [hnil] at hover
        simp only [List.length_nil] at hover
        omega
    | some backId =>
        have hqeq : c.queue.dropLast ++ [backId] = c.queue :=
          List.dropLast_append_getLast? backId hlast
        have hbmem : backId ∈ c.queue := by
          rw [← hqeq]
          exact List.mem_append_right _ (List.mem_singleton_self _)
        have hnodup : (c.queue.dropLast ++ [backId]).Nodup := by
          rw [hqeq]
          exact h.queue_nodup
        have hbnotdrop : backId ∉ c.queue.dropLast := by
          intro hmem
          exact (List.disjoint_of_nodup_append hnodup) hmem (List.mem_singleton_self _)
        have hdropmem : ∀ j ∈ c.queue.dropLast, j ∈ c.queue := by
          intro j hj
          rw [← hqeq]
          exact List.mem_append_left _ hj
        obtain ⟨p, hp, hpb⟩ := h.queue_mem_items backId hbmem
        have hkeymatch : itemKeyAt c backId = some p.1 := by
          rw [← hpb]
          exact h.items_key_match p hp
        obtain ⟨it, hel, hitkey⟩ := (itemKeyAt_eq_some_iff c backId p.1).mp hkeymatch
        rw [delete_overflow_eq c backId it hover hlast hel]
        refine ⟨?_, ?_, ?_, ?_, ?_, ?_⟩
        · exact List.Nodup.of_append_left hnodup
        · exact keys_eraseA_nodup _ _ h.items_keys_nodup
        · intro p' hp'
          have hp'mem : p' ∈ c.items := (eraseA_sublist _ _).subset hp'
          have hp'ne : p'.1 ≠ it.key := mem_eraseA_ne_key h.items_keys_nodup p' hp'
          have hp'q : p'.2 ∈ c.queue := h.items_mem_queue p' hp'mem
          have hp'nb : p'.2 ≠ backId := by
            intro hcontra
            apply hp'ne
            have := h.items_key_match p' hp'mem
            rw [hcontra, hkeymatch] at this
            have : p.1 = p'.1 := by
              injection this
            rw [← this, hitkey]
          rw [← hqeq] at hp'q
          rcases List.mem_append.mp hp'q with h1 | h2
          · exact h1
          · exact absurd (List.mem_singleton.mp h2) hp'nb
        · intro j hj
          obtain ⟨p', hp', hp'j⟩ := h.queue_mem_items j (hdropmem j hj)
          refine ⟨p', mem_eraseA_of_ne hp' ?_, hp'j⟩
          intro hkey
          have hlp : lookupA c.items p.1 = some p.2 :=
            lookupA_eq_some_of_mem h.items_keys_nodup hp
          have hlp' : lookupA c.items p'.1 = some p'.2 :=
            lookupA_eq_some_of_mem h.items_keys_nodup hp'
          rw [hkey, hitkey, hlp] at hlp'
          have : p.2 = p'.2 := by
            injection hlp'
          rw [← hp'j, ← this, hpb] at hj
          exact hbnotdrop hj
        · intro p' hp'
          exact h.items_key_match p' ((eraseA_sublist _ _).subset hp')
        · intro j hj
          exact h.ids_lt j (hdropmem j hj)
  · rw [delete_no_overflow_eq c hover]
    exact h

theorem wf_set (c : lruCache K V) (k : K) (v : V) (h : Wf c) : Wf (Set c k v).2 := by
  cases hki : lookupA c.items k with
  | none =>
      rw [set_new_eq c k v hki]
      exact wf_delete _ (wf_pushNew c k v h hki)
  | some i =>
      obtain ⟨it, hel, hitkey⟩ := h.elem_of_lookup hki
      rw [set_update_eq c k v i it hki hel]
      refine ⟨nodup_moveToFront _ _ h.queue_nodup, h.items_keys_nodup, ?_, ?_, ?_, ?_⟩
      · intro p hp
        exact (mem_moveToFront _ _ _).mpr (h.items_mem_queue p hp)
      · intro j hj
        exact h.queue_mem_items j ((mem_moveToFront _ _ _).mp hj)
      · intro p hp
        have hmatch := h.items_key_match p hp
        by_cases hpi : p.2 = i
        · rw [hpi] at hmatch ⊢
          have : itemKeyAt c i = some it.key := by
            simp [itemKeyAt, hel, ElemValue.asItem]
          rw [this] at hmatch
          have hpk : it.key = p.1 := by
            injection hmatch
          simp only [itemKeyAt]
          rw [lookupA_insertA_self]
          simp [ElemValue.asItem, hpk]
        · simp only [itemKeyAt]
          rw [lookupA_insertA_ne _ _ _ _ (fun hc => hpi hc)]
          exact hmatch
      · intro j hj
        exact h.ids_lt j ((mem_moveToFront _ _ _).mp hj)

theorem set_no_panic (c : lruCache K V) (k : K) (v : V) (h : Wf c) :
    (Set c k v).1.isSome = true := by
  cases hki : lookupA c.items k with
  | none => simp [set_new_eq c k v hki]
  | some i =>
      obtain ⟨it, hel, -⟩ := h.elem_of_lookup hki
      simp [set_update_eq c k v i it hki hel]

/-! The fresh-key branch of Set in detail. -/

theorem getLast?_cons_of_ne_nil {α : Type} (a : α) (l : List α) (h : l ≠ []) :
    (a :: l).getLast? = l.getLast? := by
  cases l with
  | nil => exact absurd rfl h
  | cons b t => exact List.getLast?_cons_cons

theorem dropLast_cons_of_ne_nil {α : Type} (a : α) (l : List α) (h : l ≠ []) :
    (a :: l).dropLast = a :: l.dropLast := by
  cases l with
  | nil => exact absurd rfl h
  | cons b t => exact List.dropLast_cons₂

theorem pushNew_queue (c : lruCache K V) (k : K) (v : V) :
    (pushNew c k v).queue = c.nextId :: c.queue := rfl

theorem pushNew_items (c : lruCache K V) (k : K) (v : V) :
    (pushNew c k v).items = insertA c.items k c.nextId := rfl

theorem pushNew_capacity (c : lruCache K V) (k : K) (v : V) :
    (pushNew c k v).capacity = c.capacity := rfl

theorem pushNew_elems_self (c : lruCache K V) (k : K) (v : V) :
    lookupA (pushNew c k v).elems c.nextId = some (ElemValue.item ⟨k, v⟩) := by
  simp [pushNew, lookupA]

theorem pushNew_elems_old (c : lruCache K V) (k : K) (v : V) {j : Nat}
    (hne : c.nextId ≠ j) :
    lookupA (pushNew c k v).elems j = lookupA c.elems j := by
  simp [pushNew, lookupA, hne]

theorem back_elem (c : lruCache K V) (h : Wf c) {backId : Nat}
    (hlast : c.queue.getLast? = some backId) :
    ∃ it : cacheItem K V, lookupA c.elems backId = some (ElemValue.item it) ∧
      backKey c = some it.key ∧ lookupA c.items it.key = some backId := by
  have hbmem : backId ∈ c.queue := by
    have hq := List.dropLast_append_getLast? backId hlast
    rw [← hq]
    exact List.mem_append_right _ (List.mem_singleton_self _)
  obtain ⟨p, hp, hpb⟩ := h.queue_mem_items backId hbmem
  have hkeymatch : itemKeyAt c backId = some p.1 := by
    rw [← hpb]
    exact h.items_key_match p hp
  obtain ⟨it, hel, hitkey⟩ := (itemKeyAt_eq_some_iff c backId p.1).mp hkeymatch
  refine ⟨it, hel, ?_, ?_⟩
  · rw [backKey, hlast]
    simp [hkeymatch, hitkey]
  · rw [hitkey]
    have hlk := lookupA_eq_some_of_mem h.items_keys_nodup hp
    rw [hpb] at hlk
    exact hlk

theorem set_new_self (c : lruCache K V) (k : K) (v : V) (h : Wf c)
    (hcap : 1 ≤ c.capacity) (hk : lookupA c.items k = none) :
    lookupA (Set c k v).2.items k = some c.nextId ∧
    lookupA (Set c k v).2.elems c.nextId = some (ElemValue.item ⟨k, v⟩) := by
  rw [set_new_eq c k v hk]
  by_cases hover : (pushNew c k v).queue.length > (pushNew c k v).capacity
  · have hlenpos : 1 ≤ c.queue.length := by
      have hcount : (pushNew c k v).queue.length = c.queue.length + 1 := by
        rw [pushNew_queue]
        rfl
      rw [hcount, pushNew_capacity] at hover
      omega
    have hqne : c.queue ≠ [] := by
      intro h0
      rw [h0] at hlenpos
      simp at hlenpos
    cases hlast : c.queue.getLast? with
    | none => exact absurd (List.getLast?_eq_none_iff.mp hlast) hqne
    | some backId =>
        obtain ⟨it, hel, hbk, hbklookup⟩ := back_elem c h hlast
        have hbmem : backId ∈ c.queue := by
          have hq := List.dropLast_append_getLast? backId hlast
          rw [← hq]
          exact List.mem_append_right _ (List.mem_singleton_self _)
        have hblt : backId < c.nextId := h.ids_lt backId hbmem
        have hqlast : (pushNew c k v).queue.getLast? = some backId := by
          rw [pushNew_queue, getLast?_cons_of_ne_nil _ _ hqne]
          exact hlast
        have helb : lookupA (pushNew c k v).elems backId =
            some (ElemValue.item it) := by
          rw [pushNew_elems_old c k v (by omega)]
          exact hel
        have hkne : it.key ≠ k := by
          intro hc
          rw [hc, hk] at hbklookup
          exact Option.noConfusion hbklookup
        rw [delete_overflow_eq (pushNew c k v) backId it hover hqlast helb]
        constructor
        · show lookupA (eraseA (pushNew c k v).items it.key) k = some c.nextId
          rw [lookupA_eraseA_ne _ _ _ (fun hc => hkne hc.symm), pushNew_items,
            lookupA_insertA_self]
        · show lookupA (pushNew c k v).elems c.nextId = some (ElemValue.item ⟨k, v⟩)
          exact pushNew_elems_self c k v
  · rw [delete_no_overflow_eq _ hover]
    constructor
    · show lookupA (pushNew c k v).items k = some c.nextId
      rw [pushNew_items, lookupA_insertA_self]
    · exact pushNew_elems_self c k v

theorem set_new_no_overflow_eq (c : lruCache K V) (k : K) (v : V)
    (hk : lookupA c.items k = none)
    (hnover : ¬c.queue.length + 1 > c.capacity) :
    (Set c k v).2 =
      { c with
        mutex := false
        elems := (c.nextId, ElemValue.item ⟨k, v⟩) :: c.elems
        queue := c.nextId :: c.queue
        items := insertA c.items k c.nextId
        nextId := c.nextId + 1 } ∧
    (Set c k v).1 = some false := by
  have hnover' : ¬(pushNew c k v).queue.length > (pushNew c k v).capacity := by
    rw [pushNew_queue, pushNew_capacity]
    simpa using hnover
  rw [set_new_eq c k v hk, delete_no_overflow_eq _ hnover']
  exact ⟨rfl, rfl⟩

theorem set_new_overflow_eq (c : lruCache K V) (k : K) (v : V) (h : Wf c)
    (hk : lookupA c.items k = none)
    (hover : c.queue.length + 1 > c.capacity) (hqne : c.queue ≠ []) :
    ∃ backId it, c.queue.getLast? = some backId ∧
      lookupA c.elems backId = some (ElemValue.item it) ∧
      backKey c = some it.key ∧ lookupA c.items it.key = some backId ∧ it.key ≠ k ∧
      (Set c k v).2 =
        { c with
          mutex := false
          elems := (c.nextId, ElemValue.item ⟨k, v⟩) :: c.elems
          queue := c.nextId :: c.queue.dropLast
          items := eraseA (insertA c.items k c.nextId) it.key
          nextId := c.nextId + 1 } ∧
      (Set c k v).1 = some false := by
  have hover' : (pushNew c k v).queue.length > (pushNew c k v).capacity := by
    rw [pushNew_queue, pushNew_capacity]
    simpa using hover
  cases hlast : c.queue.getLast? with
  | none => exact absurd (List.getLast?_eq_none_iff.mp hlast) hqne
  | some backId =>
      obtain ⟨it, hel, hbk, hbkl⟩ := back_elem c h hlast
      have hbmem : backId ∈ c.queue := h.items_mem_queue _ (mem_of_lookupA_eq_some hbkl)
      have hblt : backId < c.nextId := h.ids_lt _ hbmem
      have hqlast : (pushNew c k v).queue.getLast? = some backId := by
        rw [pushNew_queue, getLast?_cons_of_ne_nil _ _ hqne]
        exact hlast
      have helb : lookupA (pushNew c k v).elems backId = some (ElemValue.item it) := by
        rw [pushNew_elems_old c k v (by omega)]
        exact hel
      have hkne : it.key ≠ k := by
        intro hc
        rw [hc, hk] at hbkl
        exact Option.noConfusion hbkl
      refine ⟨backId, it, rfl, hel, hbk, hbkl, hkne, ?_, ?_⟩
      · rw [set_new_eq c k v hk,
          delete_overflow_eq (pushNew c k v) backId it hover' hqlast helb]
        simp [pushNew, lruCache.mk.injEq, dropLast_cons_of_ne_nil _ _ hqne]
      · rw [set_new_eq c k v hk]

theorem get_panic_eq (c : lruCache K V) (k : K) (i : Nat)
    (h1 : lookupA c.items k = some i)
    (h2 : (lookupA c.elems i).bind ElemValue.asItem = none) :
    Get c k = (none, { c with queue := moveToFront c.queue i, mutex := false }) := by
  cases hev : lookupA c.elems i with
  | none =>
      unfold Get
      simp [h1, hev]
  | some ev =>
      cases ev with
      | item it =>
          rw [hev] at h2
          exact absurd h2 (by simp [ElemValue.asItem])
      | other =>
          unfold Get
          simp [h1, hev]

theorem get_state_cases (c : lruCache K V) (k : K) :
    (Get c k).2 = { c with mutex := false } ∨
    ∃ i, lookupA c.items k = some i ∧
      (Get c k).2 = { c with queue := moveToFront c.queue i, mutex := false } := by
  cases hki : lookupA c.items k with
  | none => exact Or.inl (congrArg Prod.snd (get_miss_eq c k hki))
  | some i =>
      refine Or.inr ⟨i, rfl, ?_⟩
      cases hev : lookupA c.elems i with
      | none =>
          exact congrArg Prod.snd (get_panic_eq c k i hki (by rw [hev]; rfl))
      | some ev =>
          cases ev with
          | item it => exact congrArg Prod.snd (get_hit_eq c k i it hki hev)
          | other =>
              exact congrArg Prod.snd (get_panic_eq c k i hki (by rw [hev]; rfl))

theorem set_new_full (c : lruCache K V) (k : K) (v : V) (h : Wf c)
    (hcap : 1 ≤ c.capacity) (hfull : c.queue.length = c.capacity)
    (hk : lookupA c.items k = none) :
    (Set c k v).1 = some false ∧
    (∀ k1, backKey c = some k1 → lookupA (Set c k v).2.items k1 = none) ∧
    (∀ k2 i2, lookupA c.items k2 = some i2 → backKey c ≠ some k2 →
      lookupA (Set c k v).2.items k2 = some i2) ∧
    (Set c k v).2.queue.length = c.capacity := by
  have hover : c.queue.length + 1 > c.capacity := by omega
  have hqne : c.queue ≠ [] := by
    intro h0
    rw [h0] at hfull
    simp only [List.length_nil] at hfull
    omega
  obtain ⟨backId, it, hlast, hel, hbk, hbkl, hkne, hstate, hret⟩ :=
    set_new_overflow_eq c k v h hk hover hqne
  have hnodins : ((insertA c.items k c.nextId).map Prod.fst).Nodup :=
    keys_insertA_nodup _ _ _ h.items_keys_nodup
  refine ⟨hret, ?_, ?_, ?_⟩
  · intro k1 hk1
    rw [hbk] at hk1
    injection hk1 with hk1
    rw [hstate]
    show lookupA (eraseA (insertA c.items k c.nextId) it.key) k1 = none
    rw [← hk1]
    exact lookupA_eraseA_self _ _ hnodins
  · intro k2 i2 hlk2 hnb
    have hk2ne : k2 ≠ it.key := by
      intro hc
      apply hnb
      rw [hbk, hc]
    have hk2nek : k2 ≠ k := by
      intro hc
      rw [hc, hk] at hlk2
      exact Option.noConfusion hlk2
    rw [hstate]
    show lookupA (eraseA (insertA c.items k c.nextId) it.key) k2 = some i2
    rw [lookupA_eraseA_ne _ _ _ hk2ne, lookupA_insertA_ne _ _ _ _ hk2nek]
    exact hlk2
  · rw [hstate]
    show (c.nextId :: c.queue.dropLast).length = c.capacity
    have h1 := List.length_dropLast c.queue
    have h2 : 1 ≤ c.queue.length := by
      cases hq : c.queue with
      | nil => exact absurd hq hqne
      | cons x xs => simp [hq]
    simp only [List.length_cons]
    omega

/-! The capacity bound along any operation sequence. -/

theorem wf_empty (C : Nat) :
    Wf ({ capacity := C, mutex := false, elems := [], queue := [],
          items := [], nextId := 0 } : lruCache K V) := by
  refine ⟨List.nodup_nil, ?_, ?_, ?_, ?_, ?_⟩
  · simp
  · intro p hp
    exact absurd hp (List.not_mem_nil p)
  · intro i hi
    exact absurd hi (List.not_mem_nil i)
  · intro p hp
    exact absurd hp (List.not_mem_nil p)
  · intro i hi
    exact absurd hi (List.not_mem_nil i)

theorem inv_applyOp (c : lruCache K V) (op : Op K V) (h : Wf c)
    (hcap : 1 ≤ c.capacity) (hle : c.queue.length ≤ c.capacity)
    (heq : c.items.length = c.queue.length) :
    Wf (applyOp c op) ∧ (applyOp c op).capacity = c.capacity ∧
    (applyOp c op).queue.length ≤ c.capacity ∧
    (applyOp c op).items.length = (applyOp c op).queue.length := by
  cases op with
  | get k =>
      rcases get_state_cases c k with h1 | ⟨i, hki, h1⟩
      · refine ⟨wf_get c k h, ?_, ?_, ?_⟩ <;>
          simp [applyOp, h1, hle, heq]
      · refine ⟨wf_get c k h, ?_, ?_, ?_⟩ <;>
          simp [applyOp, h1, length_moveToFront, hle, heq]
  | set k v =>
      cases hki : lookupA c.items k with
      | some i =>
          obtain ⟨it, hel, -⟩ := h.elem_of_lookup hki
          have h1 := set_update_eq c k v i it hki hel
          have h2 : (Set c k v).2 =
              { c with elems := insertA c.elems i (ElemValue.item ⟨it.key, v⟩),
                       queue := moveToFront c.queue i,
                       mutex := false } := by
            rw [h1]
          refine ⟨wf_set c k v h, ?_, ?_, ?_⟩ <;>
            simp [applyOp, h2, length_moveToFront, hle, heq]
      | none =>
          by_cases hover : c.queue.length + 1 > c.capacity
          · have hqne : c.queue ≠ [] := by
              intro h0
              rw [h0] at hover
              simp only [List.length_nil] at hover
              omega
            obtain ⟨backId, it, hlast, hel, hbk, hbkl, hkne, hstate, -⟩ :=
              set_new_overflow_eq c k v h hki hover hqne
            have hinsfresh := length_insertA_fresh c.items k c.nextId hki
            have hbk' : lookupA (insertA c.items k c.nextId) it.key = some backId := by
              rw [lookupA_insertA_ne _ _ _ _ hkne]
              exact hbkl
            have herase := length_eraseA_present _ it.key hbk'
            have hqlen := List.length_dropLast c.queue
            have hqpos : 1 ≤ c.queue.length := by
              cases hq : c.queue with
              | nil => exact absurd hq hqne
              | cons x xs => simp [hq]
            refine ⟨wf_set c k v h, ?_, ?_, ?_⟩ <;>
              simp [applyOp, hstate] <;> omega
          · obtain ⟨hstate, -⟩ := set_new_no_overflow_eq c k v hki hover
            have hinsfresh := length_insertA_fresh c.items k c.nextId hki
            refine ⟨wf_set c k v h, ?_, ?_, ?_⟩ <;>
              simp [applyOp, hstate] <;> omega

theorem inv_runOps (c : lruCache K V) (ops : List (Op K V)) (h : Wf c)
    (hcap : 1 ≤ c.capacity) (hle : c.queue.length ≤ c.capacity)
    (heq : c.items.length = c.queue.length) :
    Wf (runOps c ops) ∧ (runOps c ops).capacity = c.capacity ∧
    (runOps c ops).queue.length ≤ c.capacity ∧
    (runOps c ops).items.length = (runOps c ops).queue.length := by
  induction ops generalizing c with
  | nil => exact ⟨h, rfl, hle, heq⟩
  | cons op rest ih =>
      obtain ⟨hwf1, hcap1, hle1, heq1⟩ := inv_applyOp c op h hcap hle heq
      have hstep : runOps c (op :: rest) = runOps (applyOp c op) rest := rfl
      obtain ⟨hwf2, hcap2, hle2, heq2⟩ :=
        ih (applyOp c op) hwf1 (hcap1 ▸ hcap) (hcap1 ▸ hle1) heq1
      rw [hstep]
      exact ⟨hwf2, hcap2.trans hcap1, hcap1 ▸ hle2, heq2⟩

theorem set_panic_eq (c : lruCache K V) (k : K) (v : V) (i : Nat)
    (h1 : lookupA c.items k = some i)
    (h2 : (lookupA c.elems i).bind ElemValue.asItem = none) :
    Set c k v = (none, { c with mutex := true }) := by
  cases hev : lookupA c.elems i with
  | none =>
      unfold Set
      simp [h1, hev]
  | some ev =>
      cases ev with
      | item it =>
          rw [hev] at h2
          exact absurd h2 (by simp [ElemValue.asItem])
      | other =>
          unfold Set
          simp [h1, hev]

/-! The claims. -/

/-- C4: for every key `k`, value `v` and well-formed cache of capacity at
least 1, immediately after `Set k v` a `Get k` with no intervening
operations returns `(v, true)`. -/
theorem set_then_get_same_key (c : lruCache K V) (k : K) (v : V)
    (hwf : Wf c) (hcap : 1 ≤ c.capacity) :
    (Get (Set c k v).2 k).1 = some (some v, true) := by
  cases hki : lookupA c.items k with
  | none =>
      obtain ⟨hit, hel⟩ := set_new_self c k v hwf hcap hki
      rw [get_hit_eq (Set c k v).2 k c.nextId ⟨k, v⟩ hit hel]
  | some i =>
      obtain ⟨it, hel, hitkey⟩ := hwf.elem_of_lookup hki
      have h1 := set_update_eq c k v i it hki hel
      have hitems : (Set c k v).2.items = c.items := by
        rw [h1]
      have helems : lookupA (Set c k v).2.elems i =
          some (ElemValue.item ⟨it.key, v⟩) := by
        rw [h1]
        show lookupA (insertA c.elems i (ElemValue.item ⟨it.key, v⟩)) i = _
        exact lookupA_insertA_self _ _ _
      rw [get_hit_eq (Set c k v).2 k i ⟨it.key, v⟩ (by rw [hitems]; exact hki) helems]

/-- Witness for C4 at a concrete cache and key. -/
theorem set_then_get_same_key_witness :
    (Get (Set emptyCache2 1 10).2 1).1 = some (some 10, true) :=
  set_then_get_same_key emptyCache2 1 10 (by decide) (by decide)

/-- C5: `Set` on an already-present key returns `wasPresent = true`,
replaces the key's value in place (same element identity), moves the key's
element to the front of the recency ordering, evicts nothing (the index and
the set of queued elements are unchanged), keeps the live count, and a
subsequent `Get` returns the new value. -/
theorem set_update_in_place (c : lruCache K V) (k : K) (v : V) (i : Nat)
    (hwf : Wf c) (hki : lookupA c.items k = some i) :
    (Set c k v).1 = some true ∧
    (Set c k v).2.items = c.items ∧
    lookupA (Set c k v).2.elems i = some (ElemValue.item ⟨k, v⟩) ∧
    (Set c k v).2.queue.head? = some i ∧
    (Set c k v).2.queue.length = c.queue.length ∧
    (∀ j, j ∈ (Set c k v).2.queue ↔ j ∈ c.queue) ∧
    (Get (Set c k v).2 k).1 = some (some v, true) := by
  obtain ⟨it, hel, hitkey⟩ := hwf.elem_of_lookup hki
  have h1 := set_update_eq c k v i it hki hel
  have hmem : i ∈ c.queue := hwf.items_mem_queue _ (mem_of_lookupA_eq_some hki)
  have hitems : (Set c k v).2.items = c.items := by
    rw [h1]
  have helems : lookupA (Set c k v).2.elems i =
      some (ElemValue.item ⟨it.key, v⟩) := by
    rw [h1]
    show lookupA (insertA c.elems i (ElemValue.item ⟨it.key, v⟩)) i = _
    exact lookupA_insertA_self _ _ _
  refine ⟨?_, hitems, ?_, ?_, ?_, ?_, ?_⟩
  · rw [h1]
  · rw [helems, hitkey]
  · rw [h1]
    show (moveToFront c.queue i).head? = some i
    exact head_moveToFront _ _ hmem
  · rw [h1]
    show (moveToFront c.queue i).length = c.queue.length
    exact length_moveToFront _ _
  · intro j
    rw [h1]
    show j ∈ moveToFront c.queue i ↔ j ∈ c.queue
    exact mem_moveToFront _ _ _
  · rw [get_hit_eq (Set c k v).2 k i ⟨it.key, v⟩ (by rw [hitems]; exact hki) helems]

/-- Witness for C5: updating present key 2 of the demo cache. -/
theorem set_update_in_place_witness :
    (Set demoCache 2 99).1 = some true ∧
    (Set demoCache 2 99).2.items = demoCache.items ∧
    lookupA (Set demoCache 2 99).2.elems 1 = some (ElemValue.item ⟨2, 99⟩) ∧
    (Set demoCache 2 99).2.queue.head? = some 1 ∧
    (Set demoCache 2 99).2.queue.length = demoCache.queue.length ∧
    (∀ j, j ∈ (Set demoCache 2 99).2.queue ↔ j ∈ demoCache.queue) ∧
    (Get (Set demoCache 2 99).2 2).1 = some (some 99, true) :=
  set_update_in_place demoCache 2 99 1 (by decide) (by decide)

/-- C6: `Get` on an absent key returns `(zeroValue, false)` — the zero value
being the `none` of the optional result — and leaves the whole state
unchanged (up to the released mutex): same queue, index, element store, back
key and live count. -/
theorem get_miss_noop (c : lruCache K V) (k : K)
    (hki : lookupA c.items k = none) :
    Get c k = (some (none, false), { c with mutex := false }) ∧
    (Get c k).2.queue = c.queue ∧
    (Get c k).2.items = c.items ∧
    (Get c k).2.elems = c.elems ∧
    backKey (Get c k).2 = backKey c ∧
    (Get c k).2.queue.length = c.queue.length := by
  have h1 := get_miss_eq c k hki
  refine ⟨h1, ?_, ?_, ?_, ?_, ?_⟩ <;> rw [h1]
  rfl

/-- Witness for C6: a miss on key 7 of the demo cache. -/
theorem get_miss_noop_witness :
    Get demoCache 7 = (some (none, false), { demoCache with mutex := false }) ∧
    (Get demoCache 7).2.queue = demoCache.queue ∧
    (Get demoCache 7).2.items = demoCache.items ∧
    (Get demoCache 7).2.elems = demoCache.elems ∧
    backKey (Get demoCache 7).2 = backKey demoCache ∧
    (Get demoCache 7).2.queue.length = demoCache.queue.length :=
  get_miss_noop demoCache 7 (by decide)

/-- C8: construction fails with `InvalidCapacity` exactly when the requested
capacity is below 1, and otherwise returns the empty cache; absence on `Get`
and overflow on `Set` are ordinary return values, not errors (their result
types in the embedding carry no error constructor). -/
theorem new_invalid_capacity_iff (C : Nat) :
    (C < 1 → New K V C = Except.error CacheError.InvalidCapacity) ∧
    (1 ≤ C → New K V C =
      Except.ok { capacity := C, mutex := false, elems := [], queue := [],
                  items := [], nextId := 0 }) := by
  constructor
  · intro h
    unfold New
    rw [if_pos h]
  · intro h
    unfold New
    rw [if_neg (by omega)]

/-- Witness for C8 at capacities 0 and 1. -/
theorem new_invalid_capacity_iff_witness :
    New Nat Nat 0 = Except.error CacheError.InvalidCapacity ∧
    New Nat Nat 1 = Except.ok
      { capacity := 1, mutex := false, elems := [], queue := [],
        items := [], nextId := 0 } :=
  ⟨(new_invalid_capacity_iff 0).1 (by decide), (new_invalid_capacity_iff 1).2 (by decide)⟩

/-- C10: the representation invariant — in particular that every queue
element stores a `cacheItem` whose key equals the index key pointing at its
element — is preserved by every `Set` and `Get`, and under it the type
assertions in `Set` and `Get` never panic (both return `some`). -/
theorem wf_preserved_no_panic (c : lruCache K V) (k : K) (v : V) (hwf : Wf c) :
    Wf (Set c k v).2 ∧ Wf (Get c k).2 ∧
    (Set c k v).1.isSome = true ∧ (Get c k).1.isSome = true :=
  ⟨wf_set c k v hwf, wf_get c k hwf, set_no_panic c k v hwf, get_no_panic c k hwf⟩

/-- Witness for C10 at the demo cache. -/
theorem wf_preserved_no_panic_witness :
    Wf (Set demoCache 3 30).2 ∧ Wf (Get demoCache 1).2 ∧
    (Set demoCache 3 30).1.isSome = true ∧ (Get demoCache 1).1.isSome = true := by
  have h := wf_preserved_no_panic demoCache 3 30 (by decide)
  have h2 := wf_preserved_no_panic demoCache 1 30 (by decide)
  exact ⟨h.1, h2.2.1, h.2.2.1, h2.2.2.2⟩

/-- C3 counterexample: on the panic exit path of the type assertion in
`Set` (exercised by a cache whose indexed element does not hold a
`cacheItem`) the mutex is NOT released: `Set`'s unlock is a plain call after
the branch, not a deferred one, so the claim that both operations release
the lock on every exit path including panics fails for `Set`. -/
theorem set_panic_keeps_mutex_locked :
    (Set badCache 0 7).1 = none ∧ (Set badCache 0 7).2.mutex = true := by
  decide

/-- C3 amended: `Get` releases the mutex on every exit path, the panic of
its type assertion included (its unlock is deferred); `Set` releases the
mutex on every normal return, but not on its panic exit. -/
theorem lock_discipline_amended (c1 c2 : lruCache K V) (k1 k2 : K) (v : V)
    (r : Bool) (h : (Set c2 k2 v).1 = some r) :
    (Get c1 k1).2.mutex = false ∧ (Set c2 k2 v).2.mutex = false := by
  constructor
  · rcases get_state_cases c1 k1 with h1 | ⟨i, -, h1⟩ <;> rw [h1]
  · cases hki : lookupA c2.items k2 with
    | none =>
        rw [set_new_eq c2 k2 v hki]
    | some i =>
        cases hev : lookupA c2.elems i with
        | none =>
            rw [set_panic_eq c2 k2 v i hki (by rw [hev]; rfl)] at h
            exact Option.noConfusion h
        | some ev =>
            cases ev with
            | item it => rw [set_update_eq c2 k2 v i it hki hev]
            | other =>
                rw [set_panic_eq c2 k2 v i hki (by rw [hev]; rfl)] at h
                exact Option.noConfusion h

/-- Witness for the amended C3: `Get` unlocks even on its panic path (at the
ill-formed cache), and a successful `Set` unlocks. -/
theorem lock_discipline_amended_witness :
    (Get badCache 0).2.mutex = false ∧ (Set demoCache 2 99).2.mutex = false :=
  lock_discipline_amended badCache demoCache 0 2 99 true (by decide)

/-- C1: on a well-formed cache holding exactly `capacity` keys, a `Set`
with a new key evicts exactly the key at the back of the recency ordering:
that key becomes absent (its `Get` misses), every other previously present
key and the new key remain present, and the live count is again exactly the
capacity (one insertion, one eviction). -/
theorem overflow_evicts_lru (c : lruCache K V) (k : K) (v : V)
    (hwf : Wf c) (hcap : 1 ≤ c.capacity) (hfull : c.queue.length = c.capacity)
    (hnew : lookupA c.items k = none) :
    (∀ k1, backKey c = some k1 → (Get (Set c k v).2 k1).1 = some (none, false)) ∧
    (∀ k2, present c k2 = true → backKey c ≠ some k2 →
      present (Set c k v).2 k2 = true) ∧
    present (Set c k v).2 k = true ∧
    (Set c k v).2.queue.length = c.capacity := by
  obtain ⟨hret, habs, hsurv, hlen⟩ := set_new_full c k v hwf hcap hfull hnew
  refine ⟨?_, ?_, ?_, hlen⟩
  · intro k1 hk1
    rw [get_miss_eq _ _ (habs k1 hk1)]
  · intro k2 hp2 hnb
    cases hlk : lookupA c.items k2 with
    | none => simp [present, hlk] at hp2
    | some i2 =>
        have hs := hsurv k2 i2 hlk hnb
        simp [present, hs]
  · obtain ⟨hit, -⟩ := set_new_self c k v hwf hcap hnew
    simp [present, hit]

/-- Witness for C1: inserting key 3 into the full demo cache evicts key 1
(the LRU), keeps key 2 and key 3, and leaves the count at 2. -/
theorem overflow_evicts_lru_witness :
    (Get (Set demoCache 3 30).2 1).1 = some (none, false) ∧
    present (Set demoCache 3 30).2 2 = true ∧
    present (Set demoCache 3 30).2 3 = true ∧
    (Set demoCache 3 30).2.queue.length = 2 := by
  obtain ⟨h1, h2, h3, h4⟩ :=
    overflow_evicts_lru demoCache 3 30 (by decide) (by decide) (by decide) (by decide)
  exact ⟨h1 1 (by decide), h2 2 (by decide) (by decide), h3, h4⟩

/-- C2: starting from a cache produced by `New C`, no finite sequence of
`Set`/`Get` operations can make the number of live entries (index bindings,
equivalently queued elements) exceed `C`. -/
theorem capacity_invariant (C : Nat) (c0 : lruCache K V)
    (h0 : New K V C = Except.ok c0) (ops : List (Op K V)) :
    (runOps c0 ops).items.length ≤ C ∧ (runOps c0 ops).queue.length ≤ C := by
  unfold New at h0
  by_cases hC : C < 1
  · rw [if_pos hC] at h0
    exact Except.noConfusion h0
  · rw [if_neg hC] at h0
    have hc0 : c0 =
        { capacity := C, mutex := false, elems := [], queue := [],
          items := [], nextId := 0 } := by
      injection h0 with h0
      exact h0.symm
    subst hc0
    obtain ⟨-, -, hle, heq⟩ :=
      inv_runOps ({ capacity := C, mutex := false, elems := [], queue := [],
                    items := [], nextId := 0 } : lruCache K V) ops (wf_empty C)
        (Nat.not_lt.mp hC) (Nat.zero_le C) rfl
    constructor
    · rw [heq]
      exact hle
    · exact hle

/-- C7: `Get` on the least-recently-used key is a hit that moves the key to
the front without evicting (same live count); an immediately following
overflow-triggering `Set` with a new key then does not evict that key — the
key that became least recently used is evicted instead. -/
theorem get_hit_protects (c : lruCache K V) (k1 k : K) (v : V)
    (hwf : Wf c) (hcap2 : 2 ≤ c.capacity) (hfull : c.queue.length = c.capacity)
    (hback : backKey c = some k1) (hnew : lookupA c.items k = none) :
    frontKey (Get c k1).2 = some k1 ∧
    (Get c k1).2.queue.length = c.queue.length ∧
    present (Set (Get c k1).2 k v).2 k1 = true ∧
    (∀ k2, backKey (Get c k1).2 = some k2 →
      present (Set (Get c k1).2 k v).2 k2 = false) := by
  cases hlast : c.queue.getLast? with
  | none =>
      unfold backKey at hback
      rw [hlast] at hback
      exact Option.noConfusion hback
  | some backId =>
      have hback' : itemKeyAt c backId = some k1 := by
        unfold backKey at hback
        rw [hlast] at hback
        exact hback
      obtain ⟨it1, hel1, hitk1⟩ := (itemKeyAt_eq_some_iff c backId k1).mp hback'
      have hqeq := List.dropLast_append_getLast? backId hlast
      have hbmem : backId ∈ c.queue := by
        rw [← hqeq]
        exact List.mem_append_right _ (List.mem_singleton_self _)
      obtain ⟨p, hp, hpb⟩ := hwf.queue_mem_items backId hbmem
      have hpk : k1 = p.1 := by
        have hm := hwf.items_key_match p hp
        rw [hpb, hback'] at hm
        injection hm with hm
      have hlk1 : lookupA c.items k1 = some backId := by
        have hlp := lookupA_eq_some_of_mem hwf.items_keys_nodup hp
        rw [hpb] at hlp
        rw [hpk]
        exact hlp
      have hc1 := get_hit_eq c k1 backId it1 hlk1 hel1
      have hstate : (Get c k1).2 =
          { c with queue := moveToFront c.queue backId, mutex := false } := by
        rw [hc1]
      have hqproj :
          ({ c with queue := moveToFront c.queue backId, mutex := false } :
            lruCache K V).queue = moveToFront c.queue backId := rfl
      have hfront : frontKey (Get c k1).2 = some k1 := by
        rw [hstate]
        unfold frontKey
        rw [hqproj, head_moveToFront _ _ hbmem]
        exact hback'
      have hlen1 : (Get c k1).2.queue.length = c.queue.length := by
        rw [hstate]
        exact length_moveToFront _ _
      have hwf1 : Wf (Get c k1).2 := wf_get c k1 hwf
      have hcap1 : 1 ≤ (Get c k1).2.capacity := by
        rw [hstate]
        show 1 ≤ c.capacity
        omega
      have hfull1 : (Get c k1).2.queue.length = (Get c k1).2.capacity := by
        rw [hstate]
        show (moveToFront c.queue backId).length = c.capacity
        rw [length_moveToFront]
        exact hfull
      have hnew1 : lookupA (Get c k1).2.items k = none := by
        rw [hstate]
        exact hnew
      obtain ⟨-, habs1, hsurv1, -⟩ :=
        set_new_full (Get c k1).2 k v hwf1 hcap1 hfull1 hnew1
      have hlk1' : lookupA (Get c k1).2.items k1 = some backId := by
        rw [hstate]
        exact hlk1
      have hbackne : backKey (Get c k1).2 ≠ some k1 := by
        intro hcontra
        rw [hstate] at hcontra
        have hq1 :
            ({ c with queue := moveToFront c.queue backId, mutex := false } :
              lruCache K V).queue = backId :: c.queue.erase backId := by
          show moveToFront c.queue backId = _
          unfold moveToFront
          rw [if_pos hbmem]
        have hlerase : (c.queue.erase backId).length = c.queue.length - 1 :=
          List.length_erase_of_mem hbmem
        have herasene : c.queue.erase backId ≠ [] := by
          intro h0
          rw [h0] at hlerase
          simp only [List.length_nil] at hlerase
          omega
        cases hlast1 : (c.queue.erase backId).getLast? with
        | none => exact herasene (List.getLast?_eq_none_iff.mp hlast1)
        | some backId2 =>
            have hql1 : (backId :: c.queue.erase backId).getLast? = some backId2 := by
              rw [getLast?_cons_of_ne_nil _ _ herasene]
              exact hlast1
            unfold backKey at hcontra
            rw [hq1, hql1] at hcontra
            have hcontra2 : itemKeyAt c backId2 = some k1 := hcontra
            have hmem2 : backId2 ∈ c.queue.erase backId := by
              have hq2 := List.dropLast_append_getLast? backId2 hlast1
              rw [← hq2]
              exact List.mem_append_right _ (List.mem_singleton_self _)
            have hmemq : backId2 ∈ c.queue := List.mem_of_mem_erase hmem2
            have hne2 : backId2 ≠ backId := by
              intro he
              rw [he] at hmem2
              exact hwf.queue_nodup.not_mem_erase hmem2
            obtain ⟨p2, hp2, hp2b⟩ := hwf.queue_mem_items backId2 hmemq
            have hp2k : k1 = p2.1 := by
              have hm2 := hwf.items_key_match p2 hp2
              rw [hp2b, hcontra2] at hm2
              injection hm2 with hm2
            have hlk2 : lookupA c.items k1 = some backId2 := by
              have hlp2 := lookupA_eq_some_of_mem hwf.items_keys_nodup hp2
              rw [hp2b] at hlp2
              rw [hp2k]
              exact hlp2
            rw [hlk1] at hlk2
            injection hlk2 with hlk2
            exact hne2 hlk2.symm
      refine ⟨hfront, hlen1, ?_, ?_⟩
      · have hs := hsurv1 k1 backId hlk1' hbackne
        simp [present, hs]
      · intro k2 hk2
        have ha := habs1 k2 hk2
        simp [present, ha]

/-- Witness for C7 at the demo cache: `Get 1` protects key 1; key 2 (the new
LRU) is evicted by the following `Set 3`. -/
theorem get_hit_protects_witness :
    frontKey (Get demoCache 1).2 = some 1 ∧
    (Get demoCache 1).2.queue.length = demoCache.queue.length ∧
    present (Set (Get demoCache 1).2 3 30).2 1 = true ∧
    present (Set (Get demoCache 1).2 3 30).2 2 = false := by
  obtain ⟨h1, h2, h3, h4⟩ :=
    get_hit_protects demoCache 1 3 30 (by decide) (by decide) (by decide)
      (by decide) (by decide)
  exact ⟨h1, h2, h3, h4 2 (by decide)⟩

/-- Witness for C2: a four-operation run on a capacity-2 cache. -/
theorem capacity_invariant_witness :
    (runOps emptyCache2
      [Op.set 1 10, Op.set 2 20, Op.set 3 30, Op.get 2]).items.length ≤ 2 ∧
    (runOps emptyCache2
      [Op.set 1 10, Op.set 2 20, Op.set 3 30, Op.get 2]).queue.length ≤ 2 :=
  capacity_invariant 2 emptyCache2 (by rfl)
    [Op.set 1 10, Op.set 2 20, Op.set 3 30, Op.get 2]

end LRU
